import Mathlib

/-!
Verification of the EduAgent prediction-market core.

The Python sources embedded here (real-valued semantics for floats):
  * `src/backend/app/lmsr.py` — the LMSR pricing kernel,
  * `src/backend/app/services/trade_service.py` — trade execution and risk guards,
  * `src/backend/app/services/coin_service.py` — settlement payouts,
  * `src/backend/app/services/market_service.py` — market lifecycle / settings.

Fallible Python functions (those that `raise ValueError`) are embedded as
`Except String` computations; the error strings abbreviate the Python
messages (which interpolate runtime values we do not model textually).
-/

namespace EduAgent

namespace Lmsr

/-- Python `max(values)` over a non-empty list (head as the base case). -/
noncomputable def lseMax : List ℝ → ℝ
  | [] => 0
  | [x] => x
  | x :: y :: xs => max x (lseMax (y :: xs))

/-- `_logsumexp` from `lmsr.py`: max-shifted log-sum-exp.
Returns an error on the empty list, as the Python code raises. -/
noncomputable def logsumexp (values : List ℝ) : Except String ℝ :=
  if values = [] then .error "Cannot compute logsumexp of empty list"
  else
    .ok (lseMax values +
      Real.log ((values.map (fun x => Real.exp (x - lseMax values))).sum))

/-- `cost` from `lmsr.py`: `C(q) = b * ln(Σᵢ exp(qᵢ / b))` with parameter checks. -/
noncomputable def cost (q : List ℝ) (b : ℝ) : Except String ℝ :=
  if b ≤ 0 then .error "Liquidity parameter b must be positive"
  else if q = [] then .error "Outcome vector q must be non-empty"
  else
    match logsumexp (q.map (fun qi => qi / b)) with
    | .error e => .error e
    | .ok l => .ok (b * l)

/-- The re-normalization step at the end of `prices` in `lmsr.py`:
divide by the total when it is positive. -/
noncomputable def pricesNormalize (result : List ℝ) : List ℝ :=
  if 0 < result.sum then result.map (fun r => r / result.sum) else result

/-- `prices` from `lmsr.py`: softmax of `q/b` followed by re-normalization. -/
noncomputable def prices (q : List ℝ) (b : ℝ) : Except String (List ℝ) :=
  if b ≤ 0 then .error "Liquidity parameter b must be positive"
  else if q = [] then .error "Outcome vector q must be non-empty"
  else
    match logsumexp (q.map (fun qi => qi / b)) with
    | .error e => .error e
    | .ok logDenom =>
      .ok (pricesNormalize ((q.map (fun qi => qi / b)).map
        (fun s => Real.exp (s - logDenom))))

/-- `quote` from `lmsr.py`: bounds-check the index, bump the traded entry,
and price the difference of costs. The index is an integer so that the
Python `outcome_idx < 0` branch is representable. -/
noncomputable def quote (q : List ℝ) (b : ℝ) (outcome_idx : ℤ) (shares : ℝ) :
    Except String (ℝ × List ℝ × List ℝ) :=
  if outcome_idx < 0 ∨ (q.length : ℤ) ≤ outcome_idx then
    .error "outcome_idx out of range"
  else
    match cost q b with
    | .error e => .error e
    | .ok cost_before =>
      match cost (q.set outcome_idx.toNat (q.getD outcome_idx.toNat 0 + shares)) b with
      | .error e => .error e
      | .ok cost_after =>
        match prices (q.set outcome_idx.toNat (q.getD outcome_idx.toNat 0 + shares)) b with
        | .error e => .error e
        | .ok new_prices =>
          .ok (cost_after - cost_before,
            q.set outcome_idx.toNat (q.getD outcome_idx.toNat 0 + shares), new_prices)

/-- Result bundle of `lmsr.execute` (keys of the Python dict). -/
structure ExecResult where
  before_q : List ℝ
  after_q : List ℝ
  before_prices : List ℝ
  after_prices : List ℝ
  cost : ℝ

/-- `execute` from `lmsr.py`: compute before-prices, then quote, and
return the full audit bundle. Performs no mutation. -/
noncomputable def execute (q : List ℝ) (b : ℝ) (outcome_idx : ℤ) (shares : ℝ) :
    Except String ExecResult :=
  match prices q b with
  | .error e => .error e
  | .ok before_prices =>
    match quote q b outcome_idx shares with
    | .error e => .error e
    | .ok (cost_diff, after_q, after_prices) =>
      .ok ⟨q, after_q, before_prices, after_prices, cost_diff⟩

/-! ### Closed-form values of the kernel

`sumExpQ`, `costVal` and `softmax` are the mathematical values the
stabilized Python computations produce; the `_ok` lemmas below prove the
embedding agrees with them whenever the parameter checks pass. -/

/-- `Σⱼ exp(qⱼ/b)`, the softmax denominator. -/
noncomputable def sumExpQ (q : List ℝ) (b : ℝ) : ℝ :=
  (q.map (fun qi => Real.exp (qi / b))).sum

/-- Closed form of the LMSR cost function: `b * ln Σⱼ exp(qⱼ/b)`. -/
noncomputable def costVal (q : List ℝ) (b : ℝ) : ℝ :=
  b * Real.log (sumExpQ q b)

/-- Closed form of the price vector: the softmax of `q/b`. -/
noncomputable def softmax (q : List ℝ) (b : ℝ) : List ℝ :=
  q.map (fun qi => Real.exp (qi / b) / sumExpQ q b)

theorem sum_map_pos (f : ℝ → ℝ) (hf : ∀ x, 0 < f x) (l : List ℝ) (h : l ≠ []) :
    0 < (l.map f).sum := by
  cases l with
  | nil => exact absurd rfl h
  | cons x xs =>
    simp only [List.map_cons, List.sum_cons]
    have hx : 0 < f x := hf x
    have hxs : 0 ≤ (xs.map f).sum := by
      apply List.sum_nonneg
      intro y hy
      rcases List.mem_map.mp hy with ⟨z, _, rfl⟩
      exact (hf z).le
    linarith

theorem sumExpQ_pos (q : List ℝ) (b : ℝ) (h : q ≠ []) : 0 < sumExpQ q b :=
  sum_map_pos _ (fun x => Real.exp_pos (x / b)) q h

theorem logsumexp_ok (values : List ℝ) (h : values ≠ []) :
    logsumexp values = .ok (Real.log ((values.map (fun x => Real.exp x)).sum)) := by
  unfold logsumexp
  rw [if_neg h]
  congr 1
  set m := lseMax values with hm
  have hshift : (values.map (fun x => Real.exp (x - m))).sum
      = (values.map (fun x => Real.exp x)).sum * Real.exp (-m) := by
    have heq : values.map (fun x => Real.exp (x - m))
        = values.map (fun x => Real.exp x * Real.exp (-m)) := by
      apply List.map_congr_left
      intro a _
      rw [Real.exp_sub, Real.exp_neg, div_eq_mul_inv]
    rw [heq, ← List.sum_map_mul_right]
  have hpos : 0 < (values.map (fun x => Real.exp x)).sum :=
    sum_map_pos _ Real.exp_pos values h
  rw [hshift, Real.log_mul (ne_of_gt hpos) (ne_of_gt (Real.exp_pos _)),
    Real.log_exp]
  ring

theorem cost_ok (q : List ℝ) (b : ℝ) (hb : 0 < b) (hq : q ≠ []) :
    cost q b = .ok (costVal q b) := by
  unfold cost
  rw [if_neg (not_le.mpr hb), if_neg hq]
  rw [logsumexp_ok _ (by simpa using hq)]
  unfold costVal sumExpQ
  rw [List.map_map]
  rfl

/-- The softmax vector sums to exactly `1` over the reals. -/
theorem softmax_sum_one (q : List ℝ) (b : ℝ) (hq : q ≠ []) :
    (softmax q b).sum = 1 := by
  unfold softmax
  have hstep : (q.map (fun qi => Real.exp (qi / b) / sumExpQ q b)).sum
      = (q.map (fun qi => Real.exp (qi / b))).sum * (sumExpQ q b)⁻¹ := by
    rw [← List.sum_map_mul_right]
    apply congrArg
    apply List.map_congr_left
    intro a _
    rw [div_eq_mul_inv]
  rw [hstep]
  have hpos : 0 < sumExpQ q b := sumExpQ_pos q b hq
  rw [show (q.map (fun qi => Real.exp (qi / b))).sum = sumExpQ q b from rfl]
  field_simp

theorem prices_ok (q : List ℝ) (b : ℝ) (hb : 0 < b) (hq : q ≠ []) :
    prices q b = .ok (softmax q b) := by
  unfold prices
  rw [if_neg (not_le.mpr hb), if_neg hq]
  rw [logsumexp_ok _ (by simpa using hq)]
  simp only
  congr 1
  set S := ((q.map (fun qi => qi / b)).map (fun x => Real.exp x)).sum with hS
  have hSeq : S = sumExpQ q b := by
    rw [hS]
    unfold sumExpQ
    rw [List.map_map]
    rfl
  have hSpos : 0 < S := by
    rw [hSeq]; exact sumExpQ_pos q b hq
  have hres : (q.map (fun qi => qi / b)).map (fun s => Real.exp (s - Real.log S))
      = softmax q b := by
    unfold softmax
    rw [List.map_map]
    apply List.map_congr_left
    intro a _
    simp only [Function.comp]
    rw [Real.exp_sub, Real.exp_log hSpos, hSeq]
  rw [hres]
  unfold pricesNormalize
  rw [softmax_sum_one q b hq, if_pos one_pos]
  simp

/-! ### List index and sum helpers -/

theorem getD_map (f : ℝ → ℝ) :
    ∀ (l : List ℝ) (i : ℕ), i < l.length → (l.map f).getD i 0 = f (l.getD i 0)
  | a :: _, 0, _ => rfl
  | _ :: l, i + 1, h => getD_map f l i (Nat.lt_of_succ_lt_succ (by simpa using h))

theorem getD_set_self :
    ∀ (l : List ℝ) (i : ℕ) (x : ℝ), i < l.length → (l.set i x).getD i 0 = x
  | _ :: _, 0, _, _ => rfl
  | _ :: l, i + 1, x, h =>
    getD_set_self l i x (Nat.lt_of_succ_lt_succ (by simpa using h))

theorem getD_set_ne (l : List ℝ) (i j : ℕ) (x : ℝ) (hij : i ≠ j) :
    (l.set i x).getD j 0 = l.getD j 0 := by
  induction l generalizing i j with
  | nil => simp [List.set]
  | cons a l ih =>
    cases i with
    | zero =>
      cases j with
      | zero => exact absurd rfl hij
      | succ j => rfl
    | succ i =>
      cases j with
      | zero => rfl
      | succ j => exact ih i j (fun h => hij (by rw [h]))

theorem set_getD_self :
    ∀ (l : List ℝ) (i : ℕ), i < l.length → l.set i (l.getD i 0) = l
  | _ :: _, 0, _ => rfl
  | a :: l, i + 1, h => by
    show a :: l.set i (l.getD i 0) = a :: l
    rw [set_getD_self l i (Nat.lt_of_succ_lt_succ (by simpa using h))]

theorem sum_map_set (f : ℝ → ℝ) :
    ∀ (l : List ℝ) (i : ℕ) (x : ℝ), i < l.length →
      ((l.set i x).map f).sum = (l.map f).sum - f (l.getD i 0) + f x
  | a :: l, 0, x, _ => by
    show f x + (l.map f).sum = f a + (l.map f).sum - f a + f x
    ring
  | a :: l, i + 1, x, h => by
    show f a + ((l.set i x).map f).sum = f a + (l.map f).sum - f (l.getD i 0) + f x
    rw [sum_map_set f l i x (Nat.lt_of_succ_lt_succ (by simpa using h))]
    ring

theorem getD_term_le_sum (f : ℝ → ℝ) (hf : ∀ x, 0 < f x) :
    ∀ (l : List ℝ) (i : ℕ), i < l.length → f (l.getD i 0) ≤ (l.map f).sum
  | a :: l, 0, _ => by
    show f a ≤ f a + (l.map f).sum
    have : 0 ≤ (l.map f).sum := by
      apply List.sum_nonneg
      intro y hy
      rcases List.mem_map.mp hy with ⟨z, _, rfl⟩
      exact (hf z).le
    linarith
  | a :: l, i + 1, h => by
    show f (l.getD i 0) ≤ f a + (l.map f).sum
    have := getD_term_le_sum f hf l i (Nat.lt_of_succ_lt_succ (by simpa using h))
    have := hf a
    linarith

theorem getD_term_lt_sum (f : ℝ → ℝ) (hf : ∀ x, 0 < f x) :
    ∀ (l : List ℝ) (i : ℕ), i < l.length → 2 ≤ l.length →
      f (l.getD i 0) < (l.map f).sum
  | a :: l, 0, _, h2 => by
    show f a < f a + (l.map f).sum
    have hl : l ≠ [] := by
      intro h
      subst h
      simp at h2
    have := sum_map_pos f hf l hl
    linarith
  | a :: l, i + 1, h, _ => by
    show f (l.getD i 0) < f a + (l.map f).sum
    have := getD_term_le_sum f hf l i (Nat.lt_of_succ_lt_succ (by simpa using h))
    have := hf a
    linarith

/-! ### Kernel bridge lemmas -/

theorem length_pos_ne_nil {q : List ℝ} {i : ℕ} (hi : i < q.length) : q ≠ [] := by
  intro h
  subst h
  simp at hi

theorem quote_ok (q : List ℝ) (b : ℝ) (i : ℕ) (s : ℝ) (hb : 0 < b)
    (hi : i < q.length) :
    quote q b (i : ℤ) s =
      .ok (costVal (q.set i (q.getD i 0 + s)) b - costVal q b,
        q.set i (q.getD i 0 + s), softmax (q.set i (q.getD i 0 + s)) b) := by
  have hq : q ≠ [] := length_pos_ne_nil hi
  have hq' : q.set i (q.getD i 0 + s) ≠ [] := by
    intro h
    have := congrArg List.length h
    rw [List.length_set] at this
    exact hq (List.length_eq_zero.mp this)
  have hguard : ¬((i : ℤ) < 0 ∨ (q.length : ℤ) ≤ (i : ℤ)) := by
    push_neg
    constructor
    · exact Int.natCast_nonneg i
    · exact_mod_cast hi
  unfold quote
  rw [if_neg hguard]
  rw [show ((i : ℤ)).toNat = i from Int.toNat_natCast i]
  rw [cost_ok q b hb hq, cost_ok _ b hb hq', prices_ok _ b hb hq']

theorem execute_ok (q : List ℝ) (b : ℝ) (i : ℕ) (s : ℝ) (hb : 0 < b)
    (hi : i < q.length) :
    execute q b (i : ℤ) s =
      .ok ⟨q, q.set i (q.getD i 0 + s), softmax q b,
        softmax (q.set i (q.getD i 0 + s)) b,
        costVal (q.set i (q.getD i 0 + s)) b - costVal q b⟩ := by
  unfold execute
  rw [prices_ok q b hb (length_pos_ne_nil hi), quote_ok q b i s hb hi]

/-- Raising one entry of `q` strictly raises the LMSR cost. -/
theorem costVal_lt_set (q : List ℝ) (b : ℝ) (hb : 0 < b) (i : ℕ)
    (hi : i < q.length) (x : ℝ) (hx : q.getD i 0 < x) :
    costVal q b < costVal (q.set i x) b := by
  have hq : q ≠ [] := length_pos_ne_nil hi
  have hS : 0 < sumExpQ q b := sumExpQ_pos q b hq
  have hE : Real.exp (q.getD i 0 / b) < Real.exp (x / b) :=
    Real.exp_lt_exp.mpr (div_lt_div_of_pos_right hx hb)
  have hS' : sumExpQ (q.set i x) b
      = sumExpQ q b - Real.exp (q.getD i 0 / b) + Real.exp (x / b) :=
    sum_map_set (fun qi => Real.exp (qi / b)) q i x hi
  have hlt : sumExpQ q b < sumExpQ (q.set i x) b := by
    rw [hS']
    linarith
  unfold costVal
  exact mul_lt_mul_of_pos_left (Real.log_lt_log hS hlt) hb

theorem mem_le_sum_of_nonneg :
    ∀ (l : List ℝ), (∀ y ∈ l, 0 ≤ y) → ∀ x ∈ l, x ≤ l.sum
  | [], _, x, hx => by simp at hx
  | a :: l, h, x, hx => by
    have hrest : 0 ≤ l.sum :=
      List.sum_nonneg (fun y hy => h y (List.mem_cons_of_mem a hy))
    rcases List.mem_cons.mp hx with rfl | hx'
    · simp only [List.sum_cons]
      linarith
    · have hih := mem_le_sum_of_nonneg l
        (fun y hy => h y (List.mem_cons_of_mem a hy)) x hx'
      have ha := h a (List.mem_cons_self a l)
      simp only [List.sum_cons]
      linarith

theorem softmax_getD (q : List ℝ) (b : ℝ) (i : ℕ) (hi : i < q.length) :
    (softmax q b).getD i 0 = Real.exp (q.getD i 0 / b) / sumExpQ q b :=
  getD_map _ q i hi

/-- A buy (raising the traded entry) strictly raises the traded outcome's
softmax price, provided there is at least one other outcome. -/
theorem softmax_traded_lt (q : List ℝ) (b : ℝ) (i : ℕ) (s : ℝ) (hb : 0 < b)
    (hi : i < q.length) (h2 : 2 ≤ q.length) (hs : 0 < s) :
    (softmax q b).getD i 0 < (softmax (q.set i (q.getD i 0 + s)) b).getD i 0 := by
  have hq : q ≠ [] := length_pos_ne_nil hi
  have hi' : i < (q.set i (q.getD i 0 + s)).length := by
    rw [List.length_set]; exact hi
  rw [softmax_getD q b i hi, softmax_getD _ b i hi',
    getD_set_self q i _ hi]
  set E := Real.exp (q.getD i 0 / b) with hE
  set E' := Real.exp ((q.getD i 0 + s) / b) with hE'
  set S := sumExpQ q b with hS
  have hEE' : E < E' := by
    rw [hE, hE']
    exact Real.exp_lt_exp.mpr (div_lt_div_of_pos_right (by linarith) hb)
  have hSpos : 0 < S := sumExpQ_pos q b hq
  have hES : E < S := by
    rw [hE, hS]
    exact getD_term_lt_sum (fun qi => Real.exp (qi / b))
      (fun x => Real.exp_pos _) q i hi h2
  have hS' : sumExpQ (q.set i (q.getD i 0 + s)) b = S - E + E' :=
    sum_map_set (fun qi => Real.exp (qi / b)) q i _ hi
  rw [hS']
  have hEpos : 0 < E := Real.exp_pos _
  have hE'pos : 0 < E' := Real.exp_pos _
  rw [div_lt_div_iff₀ hSpos (by linarith)]
  nlinarith [mul_pos (sub_pos.mpr hEE') (sub_pos.mpr hES)]

/-- A buy strictly lowers the softmax price of every other outcome. -/
theorem softmax_other_lt (q : List ℝ) (b : ℝ) (i j : ℕ) (s : ℝ) (hb : 0 < b)
    (hi : i < q.length) (hj : j < q.length) (hne : j ≠ i) (hs : 0 < s) :
    (softmax (q.set i (q.getD i 0 + s)) b).getD j 0 < (softmax q b).getD j 0 := by
  have hq : q ≠ [] := length_pos_ne_nil hi
  have hj' : j < (q.set i (q.getD i 0 + s)).length := by
    rw [List.length_set]; exact hj
  rw [softmax_getD q b j hj, softmax_getD _ b j hj',
    getD_set_ne q i j _ (fun h => hne h.symm)]
  have hSpos : 0 < sumExpQ q b := sumExpQ_pos q b hq
  have hEE' : Real.exp (q.getD i 0 / b) < Real.exp ((q.getD i 0 + s) / b) :=
    Real.exp_lt_exp.mpr (div_lt_div_of_pos_right (by linarith) hb)
  have hS' : sumExpQ (q.set i (q.getD i 0 + s)) b
      = sumExpQ q b - Real.exp (q.getD i 0 / b) + Real.exp ((q.getD i 0 + s) / b) :=
    sum_map_set (fun qi => Real.exp (qi / b)) q i _ hi
  rw [hS']
  exact div_lt_div_of_pos_left (Real.exp_pos _) hSpos (by linarith)

end Lmsr

/-! ## Claims about the pricing kernel -/

/-- C1: For every non-empty vector `q` and every `b > 0`, the entries of
`prices(q, b)` sum to within `1e-6` of `1.0` (over exact real semantics the
re-normalized sum is exactly one, covering every `b` and `q`, degenerate
cases included). -/
theorem c1_prices_sum_within_tolerance (q : List ℝ) (b : ℝ) (hq : q ≠ [])
    (hb : 0 < b) :
    ∃ p, Lmsr.prices q b = .ok p ∧ |p.sum - 1| ≤ 1e-6 := by
  refine ⟨Lmsr.softmax q b, Lmsr.prices_ok q b hb hq, ?_⟩
  rw [Lmsr.softmax_sum_one q b hq]
  norm_num

theorem c1_witness :
    ∃ p, Lmsr.prices [(0 : ℝ), 0] 1 = .ok p ∧ |p.sum - 1| ≤ 1e-6 :=
  c1_prices_sum_within_tolerance [0, 0] 1 (by simp) (by norm_num)

/-- C9: `prices(q, b)` has the same length as `q` and every entry lies in
`[0, 1]`. -/
theorem c9_prices_entries_in_unit_interval (q : List ℝ) (b : ℝ) (hq : q ≠ [])
    (hb : 0 < b) :
    ∃ p, Lmsr.prices q b = .ok p ∧ p.length = q.length ∧
      ∀ x ∈ p, 0 ≤ x ∧ x ≤ 1 := by
  refine ⟨Lmsr.softmax q b, Lmsr.prices_ok q b hb hq, ?_, ?_⟩
  · unfold Lmsr.softmax
    rw [List.length_map]
  · intro x hx
    unfold Lmsr.softmax at hx
    rcases List.mem_map.mp hx with ⟨qi, hqi, rfl⟩
    have hS := Lmsr.sumExpQ_pos q b hq
    refine ⟨by positivity, ?_⟩
    rw [div_le_one hS]
    have hmem : Real.exp (qi / b) ∈ q.map (fun qj => Real.exp (qj / b)) :=
      List.mem_map.mpr ⟨qi, hqi, rfl⟩
    exact Lmsr.mem_le_sum_of_nonneg _
      (fun y hy => by
        rcases List.mem_map.mp hy with ⟨z, _, rfl⟩
        exact (Real.exp_pos _).le) _ hmem

theorem c9_witness :
    ∃ p, Lmsr.prices [(0 : ℝ), 0] 1 = .ok p ∧ p.length = [(0 : ℝ), 0].length ∧
      ∀ x ∈ p, 0 ≤ x ∧ x ≤ 1 :=
  c9_prices_entries_in_unit_interval [0, 0] 1 (by simp) (by norm_num)

/-- C6: a buy of `x` shares followed by a sell of `x` shares from the
resulting state returns the `q`-vector exactly to its original value, and
the two cost deltas cancel (within `1e-9`; over the reals, exactly). -/
theorem c6_round_trip_cancellation (q : List ℝ) (b : ℝ) (i : ℕ) (x : ℝ)
    (hb : 0 < b) (hi : i < q.length) :
    ∃ d₁ q₁ p₁ d₂ q₂ p₂,
      Lmsr.quote q b (i : ℤ) x = .ok (d₁, q₁, p₁) ∧
      Lmsr.quote q₁ b (i : ℤ) (-x) = .ok (d₂, q₂, p₂) ∧
      q₂ = q ∧ |d₁ + d₂| ≤ 1e-9 := by
  have h1 := Lmsr.quote_ok q b i x hb hi
  set q₁ := q.set i (q.getD i 0 + x) with hq₁
  have hi₁ : i < q₁.length := by
    rw [hq₁, List.length_set]; exact hi
  have h2 := Lmsr.quote_ok q₁ b i (-x) hb hi₁
  have hback : q₁.set i (q₁.getD i 0 + -x) = q := by
    rw [hq₁, Lmsr.getD_set_self q i _ hi, List.set_set, add_neg_cancel_right,
      Lmsr.set_getD_self q i hi]
  rw [hback] at h2
  refine ⟨_, _, _, _, _, _, h1, h2, rfl, ?_⟩
  rw [show Lmsr.costVal q₁ b - Lmsr.costVal q b +
      (Lmsr.costVal q b - Lmsr.costVal q₁ b) = 0 by ring]
  norm_num

theorem c6_witness :
    ∃ d₁ q₁ p₁ d₂ q₂ p₂,
      Lmsr.quote [(0 : ℝ), 0] 100 ((0 : ℕ) : ℤ) 20 = .ok (d₁, q₁, p₁) ∧
      Lmsr.quote q₁ 100 ((0 : ℕ) : ℤ) (-20) = .ok (d₂, q₂, p₂) ∧
      q₂ = [(0 : ℝ), 0] ∧ |d₁ + d₂| ≤ 1e-9 :=
  c6_round_trip_cancellation [0, 0] 100 0 20 (by norm_num) (by norm_num)

/-- C7 counterexample: with a single-outcome vector the claim fails — the
traded outcome's price is `1` both before and after the buy, so it does not
strictly increase. -/
theorem c7_counterexample :
    Lmsr.prices [(0 : ℝ)] 1 = .ok [1] ∧
    Lmsr.prices ([(0 : ℝ)].set 0 (([(0 : ℝ)].getD 0 0) + 1)) 1 = .ok [1] ∧
    ¬(([(1 : ℝ)].getD 0 0) > ([(1 : ℝ)].getD 0 0)) := by
  refine ⟨?_, ?_, by simp⟩
  · rw [Lmsr.prices_ok [(0 : ℝ)] 1 one_pos (by simp)]
    unfold Lmsr.softmax Lmsr.sumExpQ
    norm_num
  · norm_num
    rw [Lmsr.prices_ok [(1 : ℝ)] 1 one_pos (by simp)]
    unfold Lmsr.softmax Lmsr.sumExpQ
    simp [div_self (ne_of_gt (Real.exp_pos 1))]

/-- C7 (amended): for every `q` with at least two entries, `b > 0`, and
valid outcome index `i`, a buy (raising `q[i]` by `s > 0`) strictly
increases the traded outcome's price, strictly decreases every other
entry, and the new prices still sum to within `1e-6` of `1.0`. -/
theorem c7_buy_monotone_amended (q : List ℝ) (b : ℝ) (i : ℕ) (s : ℝ)
    (hb : 0 < b) (h2 : 2 ≤ q.length) (hi : i < q.length) (hs : 0 < s) :
    ∃ p p', Lmsr.prices q b = .ok p ∧
      Lmsr.prices (q.set i (q.getD i 0 + s)) b = .ok p' ∧
      p.getD i 0 < p'.getD i 0 ∧
      (∀ j, j < q.length → j ≠ i → p'.getD j 0 < p.getD j 0) ∧
      |p'.sum - 1| ≤ 1e-6 := by
  have hq : q ≠ [] := Lmsr.length_pos_ne_nil hi
  have hq' : q.set i (q.getD i 0 + s) ≠ [] := by
    intro h
    have := congrArg List.length h
    rw [List.length_set] at this
    exact hq (List.length_eq_zero.mp this)
  refine ⟨_, _, Lmsr.prices_ok q b hb hq, Lmsr.prices_ok _ b hb hq', ?_, ?_, ?_⟩
  · exact Lmsr.softmax_traded_lt q b i s hb hi h2 hs
  · intro j hj hne
    exact Lmsr.softmax_other_lt q b i j s hb hi hj hne hs
  · rw [Lmsr.softmax_sum_one _ b hq']
    norm_num

theorem c7_witness :
    ∃ p p', Lmsr.prices [(0 : ℝ), 0] 100 = .ok p ∧
      Lmsr.prices ([(0 : ℝ), 0].set 0 (([(0 : ℝ), 0].getD 0 0) + 50)) 100 = .ok p' ∧
      p.getD 0 0 < p'.getD 0 0 ∧
      (∀ j, j < [(0 : ℝ), 0].length → j ≠ 0 → p'.getD j 0 < p.getD j 0) ∧
      |p'.sum - 1| ≤ 1e-6 :=
  c7_buy_monotone_amended [0, 0] 100 0 50 (by norm_num) (by norm_num)
    (by norm_num) (by norm_num)

/-- C8: `quote(q, b, outcome_idx, shares)` fails with the out-of-range
error exactly when `outcome_idx` is outside `[0, len q)`; for a valid
index (and a positive liquidity parameter) it returns
`cost(q with q[idx] += shares, b) − cost(q, b)` as the cost delta. -/
theorem c8_quote_out_of_range (q : List ℝ) (b : ℝ) (idx : ℤ) (s : ℝ) :
    ((Lmsr.quote q b idx s = .error "outcome_idx out of range") ↔
      (idx < 0 ∨ (q.length : ℤ) ≤ idx)) ∧
    (0 ≤ idx → idx < (q.length : ℤ) → 0 < b →
      ∃ q' p, Lmsr.quote q b idx s =
        .ok (Lmsr.costVal (q.set idx.toNat (q.getD idx.toNat 0 + s)) b -
          Lmsr.costVal q b, q', p)) := by
  constructor
  · constructor
    · intro herr
      by_contra hguard
      push_neg at hguard
      obtain ⟨h0, hlen⟩ := hguard
      have hi : idx.toNat < q.length := by
        omega
      rcases le_or_lt b 0 with hb | hb
      · unfold Lmsr.quote at herr
        rw [if_neg (by push_neg; omega)] at herr
        unfold Lmsr.cost at herr
        rw [if_pos hb] at herr
        simp only [Except.error.injEq] at herr
        exact absurd herr (by decide)
      · have := Lmsr.quote_ok q b idx.toNat s hb hi
        rw [Int.toNat_of_nonneg h0] at this
        rw [this] at herr
        exact Except.noConfusion herr
    · intro hguard
      unfold Lmsr.quote
      rw [if_pos hguard]
  · intro h0 hlen hb
    have hi : idx.toNat < q.length := by omega
    have := Lmsr.quote_ok q b idx.toNat s hb hi
    rw [Int.toNat_of_nonneg h0] at this
    exact ⟨_, _, this⟩

theorem c8_witness :
    (Lmsr.quote [(0 : ℝ), 0] 100 5 10 = .error "outcome_idx out of range") ∧
    (∃ q' p, Lmsr.quote [(0 : ℝ), 0] 100 0 10 =
      .ok (Lmsr.costVal ([(0 : ℝ), 0].set (Int.toNat 0)
          (([(0 : ℝ), 0].getD (Int.toNat 0) 0) + 10)) 100 -
        Lmsr.costVal [(0 : ℝ), 0] 100, q', p)) :=
  ⟨(c8_quote_out_of_range [0, 0] 100 5 10).1.mpr (by norm_num),
   (c8_quote_out_of_range [0, 0] 100 0 10).2 (by norm_num) (by norm_num)
     (by norm_num)⟩

/-! ## Data model

Rows of the relational store used by the services
(`src/backend/app/models/`). Floats are reals, timestamps are rationals,
foreign keys are strings. JSON audit payloads are not modelled textually. -/

/-- `models/market.py` (fields the core services read or write). -/
structure Market where
  id : String
  status : String
  b_param : ℝ
  max_position : ℝ
  max_daily_spend : ℝ
  resolved_outcome_id : Option String

/-- `models/outcome.py`. -/
structure OutcomeRow where
  id : String
  market_id : String
  q_value : ℝ
  display_order : ℕ

/-- `models/user.py` (balance field `blue_coins`). -/
structure UserRow where
  id : String
  display_name : String
  blue_coins : ℝ

/-- `models/position.py`: materialized per-(user, market, outcome) summary. -/
structure PositionRow where
  user_id : String
  market_id : String
  outcome_id : String
  shares : ℝ
  avg_cost_per_share : ℝ

/-- `models/trade.py`: immutable trade ledger row. -/
structure TradeRow where
  market_id : String
  user_id : String
  outcome_id : String
  shares : ℝ
  cost : ℝ
  created_at : ℚ
  before_q : List (String × ℝ)
  after_q : List (String × ℝ)
  before_prices : List (String × ℝ)
  after_prices : List (String × ℝ)

/-- `models/audit_log.py` (JSON payload columns omitted). -/
structure AuditEntry where
  entity_type : String
  entity_id : String
  action : String
  actor_id : String

/-- The relational store the services run against. -/
structure DB where
  markets : List Market
  outcomes : List OutcomeRow
  users : List UserRow
  positions : List PositionRow
  trades : List TradeRow
  audit_log : List AuditEntry

/-- `db.query(Market).filter(Market.id == market_id).first()`. -/
def findMarket (db : DB) (mid : String) : Option Market :=
  db.markets.find? (fun m => m.id == mid)

/-- `db.query(User).filter(User.id == user_id).first()`. -/
def findUser (db : DB) (uid : String) : Option UserRow :=
  db.users.find? (fun u => u.id == uid)

/-- `db.query(Position).filter(user, market, outcome).first()`. -/
def findPosition (positions : List PositionRow) (uid mid oid : String) :
    Option PositionRow :=
  positions.find? (fun p =>
    p.user_id == uid && p.market_id == mid && p.outcome_id == oid)

/-- Stable insertion used by `sortOutcomes`. -/
def insertByOrder (o : OutcomeRow) : List OutcomeRow → List OutcomeRow
  | [] => [o]
  | x :: xs =>
    if o.display_order ≤ x.display_order then o :: x :: xs
    else x :: insertByOrder o xs

/-- Python `sorted(market.outcomes, key=lambda o: o.display_order)`
(stable insertion sort). -/
def sortOutcomes : List OutcomeRow → List OutcomeRow
  | [] => []
  | x :: xs => insertByOrder x (sortOutcomes xs)

/-- The sorted outcomes of one market. -/
def marketOutcomes (db : DB) (mid : String) : List OutcomeRow :=
  sortOutcomes (db.outcomes.filter (fun o => o.market_id == mid))

/-- The q-vector read off the sorted outcomes. -/
def marketQ (db : DB) (mid : String) : List ℝ :=
  (marketOutcomes db mid).map (fun o => o.q_value)

/-- `_outcome_index` from `trade_service.py`: position of an outcome id in
the sorted outcome list. -/
def outcomeIndexLoop (oid : String) : List OutcomeRow → Option ℕ
  | [] => none
  | o :: rest =>
    if o.id == oid then some 0
    else (outcomeIndexLoop oid rest).map (fun n => n + 1)

/-- Update the first user row with the given id by adding `amt` to its
balance (the SQLAlchemy `.first()` row is mutated in place). -/
noncomputable def creditFirstUser : List UserRow → String → ℝ → List UserRow
  | [], _, _ => []
  | u :: rest, uid, amt =>
    if u.id == uid then { u with blue_coins := u.blue_coins + amt } :: rest
    else u :: creditFirstUser rest uid amt

/-- Replace the first market row with the given id. -/
def setFirstMarket : List Market → String → Market → List Market
  | [], _, _ => []
  | m :: rest, mid, m' =>
    if m.id == mid then m' :: rest else m :: setFirstMarket rest mid m'

/-- Replace the first position row with the given key triple. -/
def setFirstPosition : List PositionRow → String → String → String →
    PositionRow → List PositionRow
  | [], _, _, _, _ => []
  | p :: rest, uid, mid, oid, p' =>
    if p.user_id == uid && p.market_id == mid && p.outcome_id == oid then
      p' :: rest
    else p :: setFirstPosition rest uid mid oid p'

/-! ## Risk control layer (`trade_service.py`) -/

def insufficientCoinsMsg : String := "Insufficient coins"
def insufficientBalanceMsg : String := "Insufficient balance"
def riskCapMsg : String := "Risk cap exceeded"
def dailySpendMsg : String := "Daily spend limit"
def positionSizeMsg : String := "Position size exceeds max"

/-- `settings.MAX_PORTFOLIO_RISK_PCT` from `config.py`. -/
def MAX_PORTFOLIO_RISK_PCT : ℝ := 50

/-- The `join(Market).filter(status == "live")` of `_check_risk_cap`. -/
def marketIsLive (db : DB) (mid : String) : Bool :=
  match findMarket db mid with
  | some m => m.status == "live"
  | none => false

/-- Total value at risk from the user's open positions in live markets. -/
noncomputable def totalInvested (db : DB) (uid : String) : ℝ :=
  ((db.positions.filter (fun p =>
      p.user_id == uid && marketIsLive db p.market_id
        && decide (0 < p.shares))).map
    (fun p => p.shares * p.avg_cost_per_share)).sum

/-- `_check_risk_cap` from `trade_service.py`: the 50% portfolio risk cap,
with its preliminary non-positive-portfolio guard. -/
noncomputable def check_risk_cap (db : DB) (user : UserRow)
    (proposed_cost : ℝ) : Except String Unit :=
  let total_invested := totalInvested db user.id
  let total_portfolio := user.blue_coins + total_invested
  if total_portfolio ≤ 0 then .error insufficientBalanceMsg
  else if total_invested + max proposed_cost 0 >
      total_portfolio * (MAX_PORTFOLIO_RISK_PCT / 100) then .error riskCapMsg
  else .ok ()

/-- `_check_daily_spend` from `trade_service.py`: trailing-day positive
spend in this market plus the proposed cost must not exceed the cap. -/
noncomputable def check_daily_spend (db : DB) (now : ℚ) (uid mid : String)
    (max_daily : ℝ) (proposed_cost : ℝ) : Except String Unit :=
  let daily_spend := ((db.trades.filter (fun t =>
      t.user_id == uid && t.market_id == mid
        && decide (now - 1 ≤ t.created_at) && decide (0 < t.cost))).map
    (fun t => t.cost)).sum
  if daily_spend + max proposed_cost 0 > max_daily then .error dailySpendMsg
  else .ok ()

/-- `_check_max_position` from `trade_service.py`. -/
noncomputable def check_max_position (db : DB) (uid : String) (market : Market)
    (oid : String) (new_shares : ℝ) : Except String Unit :=
  let current_shares :=
    match findPosition db.positions uid market.id oid with
    | some p => p.shares
    | none => 0
  if current_shares + new_shares > market.max_position then
    .error positionSizeMsg
  else .ok ()

/-! ## Trade execution transaction (`trade_service.py`) -/

/-- The mutation block of `execute_trade` (steps 1–4 after all
validations): debit the balance, overwrite the q-values, append the trade
row, upsert the position. -/
noncomputable def applyTradeMutation (db : DB) (now : ℚ)
    (user_id market_id outcome_id : String) (shares : ℝ)
    (td : Lmsr.ExecResult) : DB × TradeRow :=
  let ids := (marketOutcomes db market_id).map (fun o => o.id)
  let trade : TradeRow := {
    market_id := market_id, user_id := user_id, outcome_id := outcome_id,
    shares := shares, cost := td.cost, created_at := now,
    before_q := ids.zip td.before_q, after_q := ids.zip td.after_q,
    before_prices := ids.zip td.before_prices,
    after_prices := ids.zip td.after_prices }
  let users' := creditFirstUser db.users user_id (-td.cost)
  let outcomes' := db.outcomes.map (fun o =>
    match (ids.zip td.after_q).find? (fun pr => pr.1 == o.id) with
    | some pr => { o with q_value := pr.2 }
    | none => o)
  let positions' :=
    match findPosition db.positions user_id market_id outcome_id with
    | some pos =>
      let pos' :=
        if shares > 0 then
          { pos with
            shares := pos.shares + shares,
            avg_cost_per_share :=
              if pos.shares + shares > 0 then
                (pos.shares * pos.avg_cost_per_share + td.cost) /
                  (pos.shares + shares)
              else 0 }
        else
          if pos.shares + shares ≤ 0 then
            { pos with shares := 0, avg_cost_per_share := 0 }
          else { pos with shares := pos.shares + shares }
      setFirstPosition db.positions user_id market_id outcome_id pos'
    | none =>
      db.positions ++ [{
        user_id := user_id,
        market_id := market_id,
        outcome_id := outcome_id,
        shares := shares,
        avg_cost_per_share := if shares ≠ 0 then td.cost / shares else 0 }]
  ({ db with
     users := users',
     outcomes := outcomes',
     positions := positions',
     trades := db.trades ++ [trade] }, trade)

/-- `execute_trade` from `trade_service.py`: validate the market is live,
resolve the outcome index and the user, compute the LMSR quote, run the
balance check and the three risk guards, then mutate atomically. -/
noncomputable def execute_trade (db : DB) (now : ℚ)
    (user_id market_id outcome_id : String) (shares : ℝ) :
    Except String (DB × TradeRow) :=
  match findMarket db market_id with
  | none => .error "Market not found"
  | some market =>
    if market.status ≠ "live" then .error "Market is not live"
    else
      match outcomeIndexLoop outcome_id (marketOutcomes db market_id) with
      | none => .error "Outcome not found in market"
      | some idx =>
        match findUser db user_id with
        | none => .error "User not found"
        | some user =>
          match Lmsr.execute (marketQ db market_id) market.b_param
              (idx : ℤ) shares with
          | .error e => .error e
          | .ok td =>
            match (if td.cost > 0 then
                if user.blue_coins < td.cost then
                  .error insufficientCoinsMsg
                else
                  match check_risk_cap db user td.cost with
                  | .error e => .error e
                  | .ok _ => check_daily_spend db now user_id market_id
                      market.max_daily_spend td.cost
              else Except.ok ()) with
            | .error e => .error e
            | .ok _ =>
              match (if shares > 0 then
                  check_max_position db user_id market outcome_id shares
                else Except.ok ()) with
              | .error e => .error e
              | .ok _ =>
                .ok (applyTradeMutation db now user_id market_id outcome_id
                  shares td)

/-- Commit-or-rollback view of the transaction: a failed `execute_trade`
leaves the store untouched. -/
noncomputable def applyTrade (db : DB) (now : ℚ)
    (uid mid oid : String) (shares : ℝ) : DB :=
  match execute_trade db now uid mid oid shares with
  | .ok res => res.1
  | .error _ => db

/-! ## Settlement (`coin_service.py`) -/

/-- One entry of the payout list `settle_market_payouts` returns. -/
structure Payout where
  user_id : String
  display_name : String
  shares : ℝ
  payout : ℝ

/-- The payout loop of `settle_market_payouts`: credit each winning
position's holder (if the user row exists) with one coin per share. -/
noncomputable def payoutLoop :
    List PositionRow → List UserRow → List UserRow × List Payout
  | [], users => (users, [])
  | pos :: rest, users =>
    match users.find? (fun u => u.id == pos.user_id) with
    | some u =>
      let res := payoutLoop rest (creditFirstUser users pos.user_id pos.shares)
      (res.1, ⟨pos.user_id, u.display_name, pos.shares, pos.shares⟩ :: res.2)
    | none => payoutLoop rest users

/-- `settle_market_payouts` from `coin_service.py`: require a resolved
market with a winning outcome, credit all winning positions, and mark the
market settled. -/
noncomputable def settle_market_payouts (db : DB) (market_id : String) :
    Except String (DB × List Payout) :=
  match findMarket db market_id with
  | none => .error "Market not found"
  | some market =>
    if market.status ≠ "resolved" then .error "Market must be resolved first"
    else
      match market.resolved_outcome_id with
      | none => .error "No resolved outcome set"
      | some rid =>
        let winning := db.positions.filter (fun p =>
          p.market_id == market_id && p.outcome_id == rid
            && decide (0 < p.shares))
        let res := payoutLoop winning db.users
        .ok ({ db with
          users := res.1,
          markets := setFirstMarket db.markets market_id
            { market with status := "settled" } }, res.2)

/-! ## Market settings (`market_service.py`) -/

/-- `update_settings` from `market_service.py`: update `b`/caps of a
market and append an audit entry. The Python code performs no status
check. -/
noncomputable def update_settings (db : DB) (market_id actor_id : String)
    (b_param : Option ℝ) (max_position : Option ℝ)
    (max_daily_spend : Option ℝ) : Except String (DB × Market) :=
  match findMarket db market_id with
  | none => .error "Market not found"
  | some market =>
    let market' := { market with
      b_param := b_param.getD market.b_param,
      max_position := max_position.getD market.max_position,
      max_daily_spend := max_daily_spend.getD market.max_daily_spend }
    .ok ({ db with
      markets := setFirstMarket db.markets market_id market',
      audit_log := db.audit_log ++
        [⟨"market", market_id, "settings_changed", actor_id⟩] }, market')

/-! ## Claims about the risk layer and the services -/

/-- C10: the portfolio risk-cap guard fails with the `Insufficient
balance` error whenever the user's balance plus total invested is ≤ 0,
regardless of the proposed cost; that error is distinct from both the
`InsufficientFunds` and the `RiskCapExceeded` errors. -/
theorem c10_risk_cap_nonpositive_portfolio (db : DB) (user : UserRow)
    (proposed_cost : ℝ)
    (h : user.blue_coins + totalInvested db user.id ≤ 0) :
    check_risk_cap db user proposed_cost = .error insufficientBalanceMsg ∧
    insufficientBalanceMsg ≠ insufficientCoinsMsg ∧
    insufficientBalanceMsg ≠ riskCapMsg := by
  refine ⟨?_, by decide, by decide⟩
  unfold check_risk_cap
  rw [if_pos h]

theorem c10_witness :
    check_risk_cap ⟨[], [], [⟨"u9", "Broke", 0⟩], [], [], []⟩
        ⟨"u9", "Broke", 0⟩ 100 = .error insufficientBalanceMsg ∧
    insufficientBalanceMsg ≠ insufficientCoinsMsg ∧
    insufficientBalanceMsg ≠ riskCapMsg :=
  c10_risk_cap_nonpositive_portfolio _ _ 100
    (by simp [totalInvested])

/-- A live market used to exhibit the missing status check of
`update_settings`. -/
noncomputable def mkLive : Market := ⟨"m1", "live", 100, 500, 200, none⟩

noncomputable def dbLive : DB := ⟨[mkLive], [], [], [], [], []⟩

/-- C5 counterexample: `update_settings` invoked on a market whose status
is `live` succeeds and changes the liquidity parameter — the Python code
performs no status check, so the claim that it fails on live markets and
leaves settings unchanged is false. -/
theorem c5_counterexample :
    mkLive.status = "live" ∧
    update_settings dbLive "m1" "teacher" (some 50) none none =
      .ok ({ dbLive with
        markets := [{ mkLive with b_param := 50 }],
        audit_log := [⟨"market", "m1", "settings_changed", "teacher"⟩] },
        { mkLive with b_param := 50 }) :=
  ⟨rfl, rfl⟩

/-- C5 (amended): `update_settings` is accepted for a market in any
status — draft, pending, live, resolved or settled alike — applying the
requested parameter changes and leaving the status untouched; it fails
only when the market does not exist. -/
theorem c5_update_settings_amended (db : DB) (mid aid : String)
    (b : Option ℝ) (mp : Option ℝ) (mds : Option ℝ) :
    (∀ market, findMarket db mid = some market →
      ∃ db', update_settings db mid aid b mp mds = .ok (db',
        { market with
          b_param := b.getD market.b_param,
          max_position := mp.getD market.max_position,
          max_daily_spend := mds.getD market.max_daily_spend })) ∧
    (findMarket db mid = none →
      update_settings db mid aid b mp mds = .error "Market not found") := by
  constructor
  · intro market hm
    unfold update_settings
    rw [hm]
    exact ⟨_, rfl⟩
  · intro hm
    unfold update_settings
    rw [hm]

theorem c5_witness :
    ∃ db', update_settings dbLive "m1" "teacher" (some 50) (some 250) none =
      .ok (db',
        { mkLive with
          b_param := (some (50 : ℝ)).getD mkLive.b_param,
          max_position := (some (250 : ℝ)).getD mkLive.max_position,
          max_daily_spend := (none : Option ℝ).getD mkLive.max_daily_spend }) :=
  (c5_update_settings_amended dbLive "m1" "teacher" (some 50) (some 250)
    none).1 mkLive rfl

theorem outcomeIndexLoop_lt_length (oid : String) :
    ∀ (l : List OutcomeRow) (i : ℕ),
      outcomeIndexLoop oid l = some i → i < l.length
  | [], i, h => by simp [outcomeIndexLoop] at h
  | o :: rest, i, h => by
    unfold outcomeIndexLoop at h
    by_cases hid : (o.id == oid) = true
    · rw [if_pos hid] at h
      injection h with h
      subst h
      simp
    · rw [if_neg hid] at h
      rcases Option.map_eq_some'.mp h with ⟨j, hj, rfl⟩
      have := outcomeIndexLoop_lt_length oid rest j hj
      simpa using Nat.succ_lt_succ this

/-- The cost delta `cost(q + shares·e_idx, b) − cost(q, b)` of a trade on
a market's q-vector. -/
noncomputable def tradeDelta (db : DB) (mid : String) (idx : ℕ) (shares : ℝ)
    (b : ℝ) : ℝ :=
  Lmsr.costVal ((marketQ db mid).set idx
    ((marketQ db mid).getD idx 0 + shares)) b -
    Lmsr.costVal (marketQ db mid) b

/-- The audit bundle `lmsr.execute` yields on a market's q-vector. -/
noncomputable def tradeExec (db : DB) (mid : String) (idx : ℕ) (shares : ℝ)
    (b : ℝ) : Lmsr.ExecResult :=
  ⟨marketQ db mid,
    (marketQ db mid).set idx ((marketQ db mid).getD idx 0 + shares),
    Lmsr.softmax (marketQ db mid) b,
    Lmsr.softmax ((marketQ db mid).set idx
      ((marketQ db mid).getD idx 0 + shares)) b,
    tradeDelta db mid idx shares b⟩

/-- `execute_trade` reduced past its lookups and the pricing kernel: what
remains is the validation block followed by the mutation. -/
theorem execute_trade_eq_checks (db : DB) (now : ℚ)
    (uid mid oid : String) (shares : ℝ) (market : Market) (user : UserRow)
    (idx : ℕ)
    (hm : findMarket db mid = some market)
    (hlive : market.status = "live")
    (hb : 0 < market.b_param)
    (hidx : outcomeIndexLoop oid (marketOutcomes db mid) = some idx)
    (hu : findUser db uid = some user) :
    execute_trade db now uid mid oid shares =
      match (if tradeDelta db mid idx shares market.b_param > 0 then
          if user.blue_coins < tradeDelta db mid idx shares market.b_param then
            Except.error insufficientCoinsMsg
          else
            match check_risk_cap db user
                (tradeDelta db mid idx shares market.b_param) with
            | .error e => .error e
            | .ok _ => check_daily_spend db now uid mid
                market.max_daily_spend
                (tradeDelta db mid idx shares market.b_param)
        else Except.ok ()) with
      | .error e => .error e
      | .ok _ =>
        match (if shares > 0 then
            check_max_position db uid market oid shares
          else Except.ok ()) with
        | .error e => .error e
        | .ok _ => .ok (applyTradeMutation db now uid mid oid shares
            (tradeExec db mid idx shares market.b_param)) := by
  have hlen : idx < (marketQ db mid).length := by
    unfold marketQ
    rw [List.length_map]
    exact outcomeIndexLoop_lt_length oid _ idx hidx
  have hexec : Lmsr.execute (marketQ db mid) market.b_param (idx : ℤ) shares
      = .ok (tradeExec db mid idx shares market.b_param) :=
    Lmsr.execute_ok (marketQ db mid) market.b_param idx shares hb hlen
  unfold execute_trade
  simp only [hm]
  rw [if_neg (show ¬(market.status ≠ "live") by simp [hlive])]
  simp only [hidx, hu, hexec]
  rfl

/-- C2: a buy whose cost delta is positive and exceeds the user's balance
fails with the `InsufficientFunds` error — the balance check fires before
the risk-cap, daily-spend, and position-cap guards ever run — and the
rolled-back transaction leaves balance, q-vector and positions unchanged. -/
theorem c2_insufficient_funds_before_caps (db : DB) (now : ℚ)
    (uid mid oid : String) (shares : ℝ) (market : Market) (user : UserRow)
    (idx : ℕ)
    (hm : findMarket db mid = some market)
    (hlive : market.status = "live")
    (hb : 0 < market.b_param)
    (hidx : outcomeIndexLoop oid (marketOutcomes db mid) = some idx)
    (hu : findUser db uid = some user)
    (hd : 0 < tradeDelta db mid idx shares market.b_param)
    (hins : user.blue_coins < tradeDelta db mid idx shares market.b_param) :
    execute_trade db now uid mid oid shares = .error insufficientCoinsMsg ∧
    applyTrade db now uid mid oid shares = db := by
  have herr : execute_trade db now uid mid oid shares
      = .error insufficientCoinsMsg := by
    rw [execute_trade_eq_checks db now uid mid oid shares market user idx
      hm hlive hb hidx hu]
    rw [if_pos hd, if_pos hins]
  refine ⟨herr, ?_⟩
  unfold applyTrade
  rw [herr]

/-! Concrete two-outcome live market used as the witness store. -/

noncomputable def mk1 : Market := ⟨"m1", "live", 1, 500, 200, none⟩
noncomputable def outA : OutcomeRow := ⟨"o1", "m1", 0, 0⟩
noncomputable def outB : OutcomeRow := ⟨"o2", "m1", 0, 1⟩
noncomputable def u1 : UserRow := ⟨"u1", "Student", 0⟩
noncomputable def dbTrade : DB := ⟨[mk1], [outA, outB], [u1], [], [], []⟩

theorem c2_witness :
    execute_trade dbTrade 0 "u1" "m1" "o1" 1 = .error insufficientCoinsMsg ∧
    applyTrade dbTrade 0 "u1" "m1" "o1" 1 = dbTrade := by
  have hd : 0 < tradeDelta dbTrade "m1" 0 1 mk1.b_param := by
    have h1 := Lmsr.costVal_lt_set [(0 : ℝ), 0] 1 one_pos 0 (by norm_num)
      ((0 : ℝ) + 1) (by show (0 : ℝ) < 0 + 1; norm_num)
    exact sub_pos.mpr h1
  exact c2_insufficient_funds_before_caps dbTrade 0 "u1" "m1" "o1" 1 mk1 u1 0
    rfl rfl (by show (0 : ℝ) < 1; norm_num) rfl rfl hd hd

/-- C4 (code bug): a sell that is the first trade for its (user, market,
outcome) triple creates a Position row with negative shares — the clamp
to zero exists only in the update branch of the upsert, not in the
creation branch, contradicting the documented "never negative" clamp. -/
theorem c4_first_trade_sell_negative_position :
    ∃ res, execute_trade dbTrade 0 "u1" "m1" "o1" (-10) = .ok res ∧
      ∃ p, findPosition res.1.positions "u1" "m1" "o1" = some p ∧
        p.shares = -10 ∧ p.shares < 0 := by
  have hcost : tradeDelta dbTrade "m1" 0 (-10) mk1.b_param < 0 := by
    have h1 := Lmsr.costVal_lt_set [(0 : ℝ) + (-10), 0] 1 one_pos 0
      (by norm_num) 0 (by show (0 : ℝ) + (-10) < 0; norm_num)
    have h1' : Lmsr.costVal ([(0 : ℝ), 0].set 0 ((0 : ℝ) + (-10))) 1 <
        Lmsr.costVal [(0 : ℝ), 0] 1 := h1
    exact sub_neg.mpr h1'
  have hok : execute_trade dbTrade 0 "u1" "m1" "o1" (-10)
      = .ok (applyTradeMutation dbTrade 0 "u1" "m1" "o1" (-10)
          (tradeExec dbTrade "m1" 0 (-10) mk1.b_param)) := by
    rw [execute_trade_eq_checks dbTrade 0 "u1" "m1" "o1" (-10) mk1 u1 0
      rfl rfl (by show (0 : ℝ) < 1; norm_num) rfl rfl]
    rw [if_neg (not_lt.mpr hcost.le), if_neg (by norm_num : ¬((-10 : ℝ) > 0))]
  exact ⟨_, hok, _, rfl, rfl, by norm_num⟩


/-! ## Settlement lemmas -/

/-- Commit-or-rollback view of settlement. -/
noncomputable def applySettle (db : DB) (mid : String) : DB :=
  match settle_market_payouts db mid with
  | .ok res => res.1
  | .error _ => db

theorem find?_creditFirstUser_self :
    ∀ (users : List UserRow) (uid : String) (amt : ℝ) (u : UserRow),
      users.find? (fun v => v.id == uid) = some u →
      (creditFirstUser users uid amt).find? (fun v => v.id == uid)
        = some ⟨u.id, u.display_name, u.blue_coins + amt⟩
  | [], _, _, _, hu => by simp at hu
  | v :: rest, uid, amt, u, hu => by
    unfold creditFirstUser
    by_cases hv : (v.id == uid) = true
    · rw [@List.find?_cons_of_pos _ (fun w => w.id == uid) v rest hv] at hu
      injection hu with hu
      subst hu
      rw [if_pos hv]
      exact @List.find?_cons_of_pos _ (fun w => w.id == uid)
        ⟨v.id, v.display_name, v.blue_coins + amt⟩ rest hv
    · rw [@List.find?_cons_of_neg _ (fun w => w.id == uid) v rest hv] at hu
      rw [if_neg hv]
      rw [@List.find?_cons_of_neg _ (fun w => w.id == uid) v
        (creditFirstUser rest uid amt) hv]
      exact find?_creditFirstUser_self rest uid amt u hu

theorem find?_creditFirstUser_ne :
    ∀ (users : List UserRow) (uid uid' : String) (amt : ℝ), uid ≠ uid' →
      (creditFirstUser users uid' amt).find? (fun v => v.id == uid)
        = users.find? (fun v => v.id == uid)
  | [], _, _, _, _ => rfl
  | v :: rest, uid, uid', amt, hne => by
    unfold creditFirstUser
    by_cases hv' : (v.id == uid') = true
    · rw [if_pos hv']
      by_cases hv : (v.id == uid) = true
      · exact absurd ((beq_iff_eq.mp hv).symm.trans (beq_iff_eq.mp hv'))
          hne
      · rw [@List.find?_cons_of_neg _ (fun w => w.id == uid)
          ⟨v.id, v.display_name, v.blue_coins + amt⟩ rest hv,
          @List.find?_cons_of_neg _ (fun w => w.id == uid) v rest hv]
    · rw [if_neg hv']
      by_cases hv : (v.id == uid) = true
      · rw [@List.find?_cons_of_pos _ (fun w => w.id == uid) v
            (creditFirstUser rest uid' amt) hv,
          @List.find?_cons_of_pos _ (fun w => w.id == uid) v rest hv]
      · rw [@List.find?_cons_of_neg _ (fun w => w.id == uid) v
            (creditFirstUser rest uid' amt) hv,
          @List.find?_cons_of_neg _ (fun w => w.id == uid) v rest hv]
        exact find?_creditFirstUser_ne rest uid uid' amt hne

/-- Running the payout loop credits each existing user with the total
shares of their winning positions, one credit per position. -/
theorem payoutLoop_find? :
    ∀ (poss : List PositionRow) (users : List UserRow) (uid : String)
      (u : UserRow), users.find? (fun v => v.id == uid) = some u →
      (payoutLoop poss users).1.find? (fun v => v.id == uid)
        = some ⟨u.id, u.display_name, u.blue_coins +
            ((poss.filter (fun p => p.user_id == uid)).map
              (fun p => p.shares)).sum⟩
  | [], users, uid, u, hu => by
    simp only [payoutLoop, List.filter_nil, List.map_nil, List.sum_nil,
      add_zero, hu]
  | pos :: rest, users, uid, u, hu => by
    unfold payoutLoop
    by_cases hpu : (pos.user_id == uid) = true
    · have hpu' : pos.user_id = uid := beq_iff_eq.mp hpu
      rw [hpu', hu]
      have hcred := find?_creditFirstUser_self users uid pos.shares u hu
      have hih := payoutLoop_find? rest
        (creditFirstUser users uid pos.shares) uid
        ⟨u.id, u.display_name, u.blue_coins + pos.shares⟩ hcred
      show (payoutLoop rest (creditFirstUser users uid pos.shares)).1.find?
        (fun v => v.id == uid) = _
      rw [hih,
        @List.filter_cons_of_pos _ (fun q => q.user_id == uid) pos rest hpu,
        List.map_cons, List.sum_cons]
      exact congrArg (fun c => some
        (⟨u.id, u.display_name, c⟩ : UserRow)) (by ring)
    · rw [@List.filter_cons_of_neg _ (fun q => q.user_id == uid) pos rest hpu]
      cases hw : users.find? (fun v => v.id == pos.user_id) with
      | none =>
        exact payoutLoop_find? rest users uid u hu
      | some w =>
        have hne : uid ≠ pos.user_id := fun h =>
          hpu (beq_iff_eq.mpr h.symm)
        have hu' : (creditFirstUser users pos.user_id pos.shares).find?
            (fun v => v.id == uid) = some u := by
          rw [find?_creditFirstUser_ne users uid pos.user_id pos.shares hne]
          exact hu
        show (payoutLoop rest
          (creditFirstUser users pos.user_id pos.shares)).1.find?
          (fun v => v.id == uid) = _
        exact payoutLoop_find? rest
          (creditFirstUser users pos.user_id pos.shares) uid u hu'

theorem find?_setFirstMarket_self :
    ∀ (markets : List Market) (mid : String) (m' : Market),
      (m'.id == mid) = true →
      (∃ m, markets.find? (fun x => x.id == mid) = some m) →
      (setFirstMarket markets mid m').find? (fun x => x.id == mid) = some m'
  | [], _, _, _, hex => by
    rcases hex with ⟨m, hm⟩
    simp at hm
  | x :: rest, mid, m', hm', hex => by
    unfold setFirstMarket
    by_cases hx : (x.id == mid) = true
    · rw [if_pos hx]
      exact @List.find?_cons_of_pos _ (fun y => y.id == mid) m' rest hm'
    · rw [if_neg hx]
      rw [@List.find?_cons_of_neg _ (fun y => y.id == mid) x
        (setFirstMarket rest mid m') hx]
      rcases hex with ⟨m, hm⟩
      rw [@List.find?_cons_of_neg _ (fun y => y.id == mid) x rest hx] at hm
      exact find?_setFirstMarket_self rest mid m' hm' ⟨m, hm⟩

/-- Settlement refuses any market whose status is not `resolved` —
in particular a market already settled. -/
theorem settle_not_resolved (db : DB) (mid : String) (m : Market)
    (hm : findMarket db mid = some m) (hst : m.status ≠ "resolved") :
    settle_market_payouts db mid = .error "Market must be resolved first" := by
  unfold settle_market_payouts
  simp only [hm]
  rw [if_pos hst]

/-- C3: settlement succeeds only against a resolved market; on success it
marks the market settled, leaves the positions table untouched, credits
every existing user with exactly the shares of each of their winning
positions (positions on other outcomes or without positive shares credit
nothing), and a second invocation against the now-settled market fails
and pays nothing. -/
theorem c3_settle_spec (db : DB) (mid : String) (db' : DB)
    (payouts : List Payout)
    (h : settle_market_payouts db mid = .ok (db', payouts)) :
    ∃ m, findMarket db mid = some m ∧ m.status = "resolved" ∧
      ∃ rid, m.resolved_outcome_id = some rid ∧
        findMarket db' mid = some { m with status := "settled" } ∧
        db'.positions = db.positions ∧
        (∀ uid u, findUser db uid = some u →
          findUser db' uid = some ⟨u.id, u.display_name, u.blue_coins +
            (((db.positions.filter (fun p => p.market_id == mid
                && p.outcome_id == rid && decide (0 < p.shares))).filter
              (fun p => p.user_id == uid)).map (fun p => p.shares)).sum⟩) ∧
        (∃ e, settle_market_payouts db' mid = .error e) ∧
        applySettle db' mid = db' := by
  unfold settle_market_payouts at h
  cases hm : findMarket db mid with
  | none => rw [hm] at h; cases h
  | some market =>
    simp only [hm] at h
    by_cases hst : market.status = "resolved"
    · rw [if_neg (show ¬(market.status ≠ "resolved") by simp [hst])] at h
      cases hrid : market.resolved_outcome_id with
      | none => rw [hrid] at h; cases h
      | some rid =>
        simp only [hrid] at h
        rw [Except.ok.injEq, Prod.mk.injEq] at h
        obtain ⟨hdb, _⟩ := h
        rw [← hrid] at hdb
        have hmid : (market.id == mid) = true :=
          @List.find?_some _ (fun x => x.id == mid) market db.markets
            (show List.find? (fun x => x.id == mid) db.markets
              = some market from hm)
        have hm' : findMarket db' mid
            = some { market with status := "settled" } := by
          rw [← hdb]
          exact find?_setFirstMarket_self db.markets mid
            { market with status := "settled" } hmid ⟨market, hm⟩
        have hsettled : ({ market with status := "settled" } :
            Market).status ≠ "resolved" := by
          show "settled" ≠ "resolved"
          decide
        refine ⟨market, rfl, hst, rid, hrid, hm', by rw [← hdb], ?_, ?_, ?_⟩
        · intro uid u hu
          rw [← hdb]
          exact payoutLoop_find? _ db.users uid u hu
        · exact ⟨"Market must be resolved first",
            settle_not_resolved db' mid _ hm' hsettled⟩
        · unfold applySettle
          rw [settle_not_resolved db' mid _ hm' hsettled]
    · rw [if_pos hst] at h
      cases h

/-! Concrete resolved market with one winning and one losing position,
used as the settlement witness store. -/

noncomputable def w1 : UserRow := ⟨"w1", "Winner", 100⟩
noncomputable def mkRes : Market := ⟨"m2", "resolved", 100, 500, 200, some "o1"⟩
noncomputable def posWin : PositionRow := ⟨"w1", "m2", "o1", 30, 2⟩
noncomputable def posLose : PositionRow := ⟨"w1", "m2", "o2", 10, 1⟩
noncomputable def dbC3 : DB := ⟨[mkRes], [], [w1], [posWin, posLose], [], []⟩

noncomputable def dbC3settled : DB :=
  { dbC3 with
    users := [⟨"w1", "Winner", (100 : ℝ) + 30⟩],
    markets := [{ mkRes with status := "settled" }] }

noncomputable def pay3 : List Payout := [⟨"w1", "Winner", 30, 30⟩]

theorem c3_witness :
    ∃ m, findMarket dbC3 "m2" = some m ∧ m.status = "resolved" ∧
      ∃ rid, m.resolved_outcome_id = some rid ∧
        findMarket dbC3settled "m2" = some { m with status := "settled" } ∧
        dbC3settled.positions = dbC3.positions ∧
        (∀ uid u, findUser dbC3 uid = some u →
          findUser dbC3settled uid = some ⟨u.id, u.display_name,
            u.blue_coins +
            (((dbC3.positions.filter (fun p => p.market_id == "m2"
                && p.outcome_id == rid && decide (0 < p.shares))).filter
              (fun p => p.user_id == uid)).map (fun p => p.shares)).sum⟩) ∧
        (∃ e, settle_market_payouts dbC3settled "m2" = .error e) ∧
        applySettle dbC3settled "m2" = dbC3settled := by
  have hw : (fun p : PositionRow => p.market_id == "m2"
      && p.outcome_id == "o1" && decide (0 < p.shares)) posWin = true := by
    show decide ((0 : ℝ) < 30) = true
    rw [decide_eq_true_eq]
    norm_num
  have hl : ¬(fun p : PositionRow => p.market_id == "m2"
      && p.outcome_id == "o1" && decide (0 < p.shares)) posLose = true :=
    fun h => Bool.noConfusion (show false = true from h)
  have hfil : dbC3.positions.filter (fun p => p.market_id == "m2"
      && p.outcome_id == "o1" && decide (0 < p.shares)) = [posWin] := by
    rw [show dbC3.positions = [posWin, posLose] from rfl]
    rw [@List.filter_cons_of_pos _ (fun p => p.market_id == "m2"
        && p.outcome_id == "o1" && decide (0 < p.shares)) posWin
        [posLose] hw,
      @List.filter_cons_of_neg _ (fun p => p.market_id == "m2"
        && p.outcome_id == "o1" && decide (0 < p.shares)) posLose [] hl,
      List.filter_nil]
  have hset : settle_market_payouts dbC3 "m2" = .ok (dbC3settled, pay3) := by
    unfold settle_market_payouts
    simp only [show findMarket dbC3 "m2" = some mkRes from rfl]
    rw [if_neg (show ¬(mkRes.status ≠ "resolved") by simp [mkRes])]
    simp only [show mkRes.resolved_outcome_id = some "o1" from rfl]
    rw [hfil]
    rfl
  exact c3_settle_spec dbC3 "m2" dbC3settled pay3 hset

end EduAgent
